import Mathlib

/-!
Verification of the CBRF precious-metal price collector (`src/metals.py`,
`src/utils.py`).

Modelling conventions, shared by all definitions below:

* Calendar dates are modelled as proleptic-Gregorian day numbers (`Nat`),
  i.e. the value of Python's `date.toordinal()`.  Adding one day is `+ 1`.
  ISO-8601 date strings (`YYYY-MM-DD`, the dictionary keys used by the
  source) compare lexicographically exactly as their day numbers compare,
  so string comparison on keys is modelled by `≤` on `Nat`.
* Python `dict`s are modelled as association lists (`List (key × value)`)
  in insertion order; real dictionaries never hold a duplicate key, which
  appears as a `Nodup` hypothesis where a claim needs it.
* `decimal.Decimal` is modelled by `PyDecimal` below: a finite decimal
  with a sign, a coefficient (a natural number: the digit string of a real
  `Decimal` never carries leading zeros) and an exponent.  The special
  values `Infinity`/`NaN`, which the program never constructs, are outside
  the model.
-/

/-- A finite Python `decimal.Decimal`: `(-1)^sign × coeff × 10^exp`. -/
structure PyDecimal where
  sign : Bool
  coeff : Nat
  exp : Int
deriving DecidableEq, Repr

/-- A price record: Python's per-date `dict` mapping metal name to Decimal. -/
abbrev Rec := List (String × PyDecimal)

/-- First-match association-list lookup, the model of Python `dict` access
(`raw[iso]` / `iso in raw`). -/
def lookupA : List (Nat × Rec) → Nat → Option Rec
  | [], _ => none
  | (k, v) :: ps, d => if k = d then some v else lookupA ps d

/-- One bounded iteration of the `while curr <= end` loop of
`ParserCBRF._quarter_ranges` (src/metals.py lines 79-90): emit the chunk
`(curr, min (curr+89) end)` and restart one day later.  The fuel argument
only bounds the iteration count; `quarter_ranges` passes `e + 1 - s`,
which is enough because every iteration advances `curr` by at least one
day and the loop stops once `curr > e`. -/
def quarterLoop : Nat → Nat → Nat → List (Nat × Nat)
  | 0, _, _ => []
  | f + 1, curr, e =>
    if curr ≤ e then
      (curr, min (curr + 89) e) :: quarterLoop f (min (curr + 89) e + 1) e
    else []

/-- Model of `ParserCBRF._quarter_ranges(start, end)`: split `[s, e]` into chunks of
at most 90 calendar days.  (The source formats each bound with
`strftime("%d.%m.%Y")`; the formatting is a bijection on dates and is not
modelled — the chunks are returned as day-number pairs.) -/
def quarter_ranges (s e : Nat) : List (Nat × Nat) :=
  quarterLoop (e + 1 - s) s e

lemma quarterLoop_nil (f curr e : Nat) (h : e < curr) :
    quarterLoop f curr e = [] := by
  cases f with
  | zero => rfl
  | succ f => simp [quarterLoop, Nat.not_le.mpr h]

lemma quarterLoop_spec (f : Nat) : ∀ curr e : Nat, curr ≤ e → e + 1 - curr ≤ f →
    (∃ t, (quarterLoop f curr e).head? = some (curr, t)) ∧
    (∃ fr, (quarterLoop f curr e).getLast? = some (fr, e)) ∧
    List.Chain' (fun p q : Nat × Nat => q.1 = p.2 + 1) (quarterLoop f curr e) ∧
    (∀ p ∈ quarterLoop f curr e, p.1 ≤ p.2 ∧ p.2 + 1 ≤ p.1 + 90) := by
  induction f with
  | zero => intro curr e h1 h2; omega
  | succ f ih =>
    intro curr e h1 h2
    by_cases hm : e ≤ curr + 89
    · -- last chunk: `min (curr+89) e = e`, the recursive call is empty
      have hmin : min (curr + 89) e = e := by omega
      have hrest : quarterLoop f (e + 1) e = [] := quarterLoop_nil _ _ _ (by omega)
      simp only [quarterLoop, if_pos h1, hmin, hrest]
      refine ⟨⟨e, rfl⟩, ⟨curr, rfl⟩, ?_, ?_⟩
      · simp
      · intro p hp
        simp only [List.mem_singleton] at hp
        subst hp
        constructor <;> simp <;> omega
    · -- full 90-day chunk, then recurse from `curr + 90`
      have hmin : min (curr + 89) e = curr + 89 := by omega
      have h1' : curr + 90 ≤ e := by omega
      have h2' : e + 1 - (curr + 90) ≤ f := by omega
      obtain ⟨⟨t, ht⟩, ⟨fr, hfr⟩, hchain, hbound⟩ :=
        ih (curr + 89 + 1) e (by omega) (by omega)
      simp only [quarterLoop, if_pos h1, hmin]
      refine ⟨⟨curr + 89, rfl⟩, ⟨fr, ?_⟩, ?_, ?_⟩
      · -- getLast? of a cons with a nonempty tail
        cases hq : quarterLoop f (curr + 89 + 1) e with
        | nil => rw [hq] at ht; simp at ht
        | cons a l => rw [hq] at hfr; rw [List.getLast?_cons_cons]; exact hfr
      · rw [List.chain'_cons']
        refine ⟨?_, hchain⟩
        intro b hb
        rw [ht] at hb
        simp at hb
        subst hb
        rfl
      · intro p hp
        rcases List.mem_cons.mp hp with hp | hp
        · subst hp; constructor <;> omega
        · exact hbound p hp

/-- C2: for `start ≤ end`, `_quarter_ranges` produces an ordered list of
`(from, to)` chunks whose first `from` is `start`, whose last `to` is
`end`, where each next `from` is exactly one day after the previous `to`,
where every chunk `[from, to]` is well-formed and covers at most 90
calendar days (`to + 1 ≤ from + 90`), and `start = end` yields exactly the
single degenerate chunk `[(start, start)]`. -/
theorem quarter_ranges_spec (s e : Nat) (h : s ≤ e) :
    (∃ t, (quarter_ranges s e).head? = some (s, t)) ∧
    (∃ fr, (quarter_ranges s e).getLast? = some (fr, e)) ∧
    List.Chain' (fun p q : Nat × Nat => q.1 = p.2 + 1) (quarter_ranges s e) ∧
    (∀ p ∈ quarter_ranges s e, p.1 ≤ p.2 ∧ p.2 + 1 ≤ p.1 + 90) ∧
    (s = e → quarter_ranges s e = [(s, s)]) := by
  obtain ⟨h1, h2, h3, h4⟩ := quarterLoop_spec (e + 1 - s) s e h (Nat.le_refl _)
  refine ⟨h1, h2, h3, h4, ?_⟩
  intro hse
  subst hse
  have : s + 1 - s = 1 := by omega
  simp [quarter_ranges, this, quarterLoop, quarterLoop_nil]

/-- Witness for C2 at `start = 10`, `end = 200` (three chunks). -/
theorem quarter_ranges_spec_witness :
    10 ≤ 200 ∧
    ((∃ t, (quarter_ranges 10 200).head? = some (10, t)) ∧
     (∃ fr, (quarter_ranges 10 200).getLast? = some (fr, 200)) ∧
     List.Chain' (fun p q : Nat × Nat => q.1 = p.2 + 1) (quarter_ranges 10 200) ∧
     (∀ p ∈ quarter_ranges 10 200, p.1 ≤ p.2 ∧ p.2 + 1 ≤ p.1 + 90) ∧
     (10 = 200 → quarter_ranges 10 200 = [(10, 10)])) :=
  ⟨by decide, quarter_ranges_spec 10 200 (by decide)⟩

/-- The keys of an association list (Python `raw.keys()`). -/
def keysOf (raw : List (Nat × Rec)) : List Nat := raw.map Prod.fst

/-- Model of `sorted(raw.keys())[0]`: the minimum key (0 for an empty dict; the
source never takes the minimum of an empty dict). -/
def minKey (raw : List (Nat × Rec)) : Nat :=
  match keysOf raw with
  | [] => 0
  | k :: ks => ks.foldl min k

/-- Model of `sorted(raw.keys())[-1]`: the maximum key. -/
def maxKey (raw : List (Nat × Rec)) : Nat :=
  match keysOf raw with
  | [] => 0
  | k :: ks => ks.foldl max k

/-- One bounded iteration of the `while d <= end` loop of
`ParserCBRF._fill_data_gaps` (src/metals.py lines 127-149), carrying the
running `current` record (Python initialises it to the empty dict `{}`,
modelled as `[]`).  A present day adopts its own record and updates
`current`; an absent day receives a copy of `current` and, when `current`
is non-empty (`if current:`), the day is added to the synthesized set.
The fuel is the number of remaining loop iterations; the wrapper passes
`end + 1 - start`, the exact number of days walked. -/
def fillLoop (raw : List (Nat × Rec)) : Nat → Rec → Nat → List (Nat × Rec) × List Nat
  | 0, _, _ => ([], [])
  | fuel + 1, cur, d =>
    match lookupA raw d with
    | some r =>
      let rest := fillLoop raw fuel r (d + 1)
      ((d, r) :: rest.1, rest.2)
    | none =>
      let rest := fillLoop raw fuel cur (d + 1)
      ((d, cur) :: rest.1, if cur = [] then rest.2 else d :: rest.2)

/-- Model of `ParserCBRF._fill_data_gaps(raw)`: the dense series plus the set of
synthesized dates (the Python `set` is modelled as a list; the claims
about it are stated via membership). -/
def fill_data_gaps (raw : List (Nat × Rec)) : List (Nat × Rec) × List Nat :=
  if raw = [] then ([], [])
  else fillLoop raw (maxKey raw + 1 - minKey raw) [] (minKey raw)

/-- The `current` record after the forward-fill loop has processed the
`fuel` days `d, d+1, …, d+fuel-1` starting from record `cur`. -/
def curAt (raw : List (Nat × Rec)) : Nat → Rec → Nat → Rec
  | 0, cur, _ => cur
  | fuel + 1, cur, d =>
    match lookupA raw d with
    | some r => curAt raw fuel r (d + 1)
    | none => curAt raw fuel cur (d + 1)

/-- The latest date strictly before `d` that is present in `raw`
(`d'` in the specification's forward-fill property). -/
def prevKey (raw : List (Nat × Rec)) (d : Nat) : Option Nat :=
  match (keysOf raw).filter (fun k => k < d) with
  | [] => none
  | k :: ks => some (ks.foldl max k)

lemma lookupA_mem {raw : List (Nat × Rec)} {d : Nat} {r : Rec}
    (h : lookupA raw d = some r) : (d, r) ∈ raw := by
  induction raw with
  | nil => simp [lookupA] at h
  | cons p ps ih =>
    obtain ⟨k, v⟩ := p
    by_cases hk : k = d
    · subst hk
      simp [lookupA] at h
      simp [h]
    · simp [lookupA, hk] at h
      exact List.mem_cons_of_mem _ (ih h)

lemma lookupA_mem_keys {raw : List (Nat × Rec)} {d : Nat} {r : Rec}
    (h : lookupA raw d = some r) : d ∈ keysOf raw := by
  have h2 := List.mem_map_of_mem Prod.fst (lookupA_mem h)
  exact h2

lemma lookupA_isSome_of_mem {raw : List (Nat × Rec)} {d : Nat}
    (h : d ∈ keysOf raw) : ∃ r, lookupA raw d = some r := by
  induction raw with
  | nil => simp [keysOf] at h
  | cons p ps ih =>
    obtain ⟨k, v⟩ := p
    by_cases hk : k = d
    · subst hk; exact ⟨v, by simp [lookupA]⟩
    · have h' : d ∈ keysOf ps := by
        rcases List.mem_cons.mp h with h | h
        · exact absurd h.symm hk
        · exact h
      obtain ⟨r, hr⟩ := ih h'
      exact ⟨r, by simpa [lookupA, hk] using hr⟩

lemma foldl_min_mem (k : Nat) (ks : List Nat) : ks.foldl min k ∈ k :: ks := by
  induction ks generalizing k with
  | nil => simp
  | cons a ks ih =>
    rcases min_choice k a with h | h <;> rw [List.foldl_cons, h]
    · have hm := ih k
      rcases List.mem_cons.mp hm with hm | hm <;> simp [hm]
    · have hm := ih a
      rcases List.mem_cons.mp hm with hm | hm <;> simp [hm]

lemma foldl_min_le (k : Nat) (ks : List Nat) :
    ks.foldl min k ≤ k ∧ ∀ x ∈ ks, ks.foldl min k ≤ x := by
  induction ks generalizing k with
  | nil => simp
  | cons a ks ih =>
    obtain ⟨h1, h2⟩ := ih (min k a)
    rw [List.foldl_cons]
    refine ⟨by omega, ?_⟩
    intro x hx
    rcases List.mem_cons.mp hx with hx | hx
    · subst hx; omega
    · exact h2 x hx

lemma foldl_max_mem (k : Nat) (ks : List Nat) : ks.foldl max k ∈ k :: ks := by
  induction ks generalizing k with
  | nil => simp
  | cons a ks ih =>
    rcases max_choice k a with h | h <;> rw [List.foldl_cons, h]
    · have hm := ih k
      rcases List.mem_cons.mp hm with hm | hm <;> simp [hm]
    · have hm := ih a
      rcases List.mem_cons.mp hm with hm | hm <;> simp [hm]

lemma foldl_max_le (k : Nat) (ks : List Nat) :
    k ≤ ks.foldl max k ∧ ∀ x ∈ ks, x ≤ ks.foldl max k := by
  induction ks generalizing k with
  | nil => simp
  | cons a ks ih =>
    obtain ⟨h1, h2⟩ := ih (max k a)
    rw [List.foldl_cons]
    refine ⟨by omega, ?_⟩
    intro x hx
    rcases List.mem_cons.mp hx with hx | hx
    · subst hx; omega
    · exact h2 x hx

lemma minKey_le {raw : List (Nat × Rec)} {d : Nat} (h : d ∈ keysOf raw) :
    minKey raw ≤ d := by
  unfold minKey
  cases hk : keysOf raw with
  | nil => rw [hk] at h; simp at h
  | cons k ks =>
    rw [hk] at h
    obtain ⟨h1, h2⟩ := foldl_min_le k ks
    rcases List.mem_cons.mp h with h | h
    · subst h; exact h1
    · exact h2 d h

lemma le_maxKey {raw : List (Nat × Rec)} {d : Nat} (h : d ∈ keysOf raw) :
    d ≤ maxKey raw := by
  unfold maxKey
  cases hk : keysOf raw with
  | nil => rw [hk] at h; simp at h
  | cons k ks =>
    rw [hk] at h
    obtain ⟨h1, h2⟩ := foldl_max_le k ks
    rcases List.mem_cons.mp h with h | h
    · subst h; exact h1
    · exact h2 d h

lemma minKey_mem {raw : List (Nat × Rec)} (h : raw ≠ []) :
    minKey raw ∈ keysOf raw := by
  unfold minKey
  cases hk : keysOf raw with
  | nil =>
    cases raw with
    | nil => exact absurd rfl h
    | cons p ps => simp [keysOf] at hk
  | cons k ks => exact foldl_min_mem k ks

lemma maxKey_mem {raw : List (Nat × Rec)} (h : raw ≠ []) :
    maxKey raw ∈ keysOf raw := by
  unfold maxKey
  cases hk : keysOf raw with
  | nil =>
    cases raw with
    | nil => exact absurd rfl h
    | cons p ps => simp [keysOf] at hk
  | cons k ks => exact foldl_max_mem k ks

lemma fillLoop_lookup (raw : List (Nat × Rec)) :
    ∀ (fuel d : Nat) (cur : Rec) (q : Nat), d ≤ q → q < d + fuel →
      lookupA (fillLoop raw fuel cur d).1 q = some (curAt raw (q + 1 - d) cur d) := by
  intro fuel
  induction fuel with
  | zero => intro d cur q h1 h2; omega
  | succ fuel ih =>
    intro d cur q h1 h2
    rcases Nat.eq_or_lt_of_le h1 with heq | hlt
    · subst heq
      have hq1 : d + 1 - d = 1 := by omega
      cases hl : lookupA raw d with
      | some r => simp [fillLoop, hl, lookupA, hq1, curAt]
      | none => simp [fillLoop, hl, lookupA, hq1, curAt]
    · have hne : d ≠ q := by omega
      have hsq : q + 1 - d = (q + 1 - (d + 1)) + 1 := by omega
      cases hl : lookupA raw d with
      | some r =>
        have := ih (d + 1) r q (by omega) (by omega)
        simp only [fillLoop, hl, lookupA, if_neg hne]
        rw [this, hsq]
        simp [curAt, hl]
      | none =>
        have := ih (d + 1) cur q (by omega) (by omega)
        simp only [fillLoop, hl, lookupA, if_neg hne]
        rw [this, hsq]
        simp [curAt, hl]

lemma curAt_present (raw : List (Nat × Rec)) {q : Nat} {r : Rec}
    (hq : lookupA raw q = some r) :
    ∀ (n d : Nat) (cur : Rec), d + n = q → curAt raw (n + 1) cur d = r := by
  intro n
  induction n with
  | zero =>
    intro d cur hd
    have : d = q := by omega
    subst this
    simp [curAt, hq]
  | succ n ih =>
    intro d cur hd
    cases hl : lookupA raw d with
    | some r' =>
      have : curAt raw (n + 1 + 1) cur d = curAt raw (n + 1) r' (d + 1) := by
        simp [curAt, hl]
      rw [this, ih (d + 1) r' (by omega)]
    | none =>
      have : curAt raw (n + 1 + 1) cur d = curAt raw (n + 1) cur (d + 1) := by
        simp [curAt, hl]
      rw [this, ih (d + 1) cur (by omega)]

lemma curAt_absent (raw : List (Nat × Rec)) {q : Nat}
    (hq : lookupA raw q = none) :
    ∀ (n d : Nat) (cur : Rec), d + n = q → curAt raw (n + 1) cur d = curAt raw n cur d := by
  intro n
  induction n with
  | zero =>
    intro d cur hd
    have : d = q := by omega
    subst this
    simp [curAt, hq]
  | succ n ih =>
    intro d cur hd
    cases hl : lookupA raw d with
    | some r' => simp only [curAt, hl]; exact ih (d + 1) r' (by omega)
    | none => simp only [curAt, hl]; exact ih (d + 1) cur (by omega)

lemma curAt_gap (raw : List (Nat × Rec)) {d' : Nat} {r : Rec}
    (hd' : lookupA raw d' = some r) :
    ∀ (m d : Nat) (cur : Rec), d ≤ d' →
      (∀ k, d' < k → k ≤ d' + m → lookupA raw k = none) →
      curAt raw (d' + m + 1 - d) cur d = r := by
  intro m
  induction m with
  | zero =>
    intro d cur hdd hgap
    have : d' + 0 + 1 - d = (d' - d) + 1 := by omega
    rw [this]
    exact curAt_present raw hd' (d' - d) d cur (by omega)
  | succ m ih =>
    intro d cur hdd hgap
    have habs : lookupA raw (d' + m + 1) = none := hgap _ (by omega) (by omega)
    have h1 : d' + (m + 1) + 1 - d = ((d' + m + 1) - d) + 1 := by omega
    have h2 : d + ((d' + m + 1) - d) = d' + m + 1 := by omega
    rw [h1, curAt_absent raw habs _ d cur h2]
    have h3 : d' + m + 1 - d = (d' + m + 1) - d := by omega
    rw [← h3]
    exact ih d cur hdd (fun k hk1 hk2 => hgap k hk1 (by omega))

lemma prevKey_spec {raw : List (Nat × Rec)} {d k : Nat}
    (h : prevKey raw d = some k) :
    k ∈ keysOf raw ∧ k < d ∧ ∀ j ∈ keysOf raw, j < d → j ≤ k := by
  unfold prevKey at h
  cases hf : (keysOf raw).filter (fun k => k < d) with
  | nil => rw [hf] at h; simp at h
  | cons a as =>
    rw [hf] at h
    simp only [Option.some.injEq] at h
    subst h
    have hmem : as.foldl max a ∈ a :: as := foldl_max_mem a as
    rw [← hf] at hmem
    have hmem' := List.mem_of_mem_filter hmem
    have hlt : as.foldl max a < d := by
      have := List.of_mem_filter hmem
      simpa using this
    refine ⟨hmem', hlt, ?_⟩
    intro j hj hjd
    have hjf : j ∈ a :: as := by
      rw [← hf]
      exact List.mem_filter.mpr ⟨hj, by simpa using hjd⟩
    obtain ⟨h1, h2⟩ := foldl_max_le a as
    rcases List.mem_cons.mp hjf with hj' | hj'
    · subst hj'; exact h1
    · exact h2 j hj'

lemma prevKey_isSome {raw : List (Nat × Rec)} {d : Nat}
    (hne : raw ≠ []) (hmin : minKey raw ≤ d) (habs : lookupA raw d = none) :
    ∃ k, prevKey raw d = some k := by
  have hminmem := minKey_mem hne
  have hminlt : minKey raw < d := by
    rcases Nat.eq_or_lt_of_le hmin with h | h
    · exfalso
      obtain ⟨r, hr⟩ := lookupA_isSome_of_mem (h ▸ hminmem)
      rw [hr] at habs
      exact Option.noConfusion habs
    · exact h
  have : minKey raw ∈ (keysOf raw).filter (fun k => k < d) :=
    List.mem_filter.mpr ⟨hminmem, by simpa using hminlt⟩
  unfold prevKey
  cases hf : (keysOf raw).filter (fun k => k < d) with
  | nil => rw [hf] at this; simp at this
  | cons a as => exact ⟨as.foldl max a, rfl⟩

/-- C1: for every non-empty sparse series `raw` and every date `d` between
the earliest and the latest date present in `raw`, the dense series built
by `_fill_data_gaps` is defined at `d`; it equals `raw[d]` when `d` is
present, and otherwise equals the record of `d'`, the latest date earlier
than `d` present in `raw`. -/
theorem fill_data_gaps_forward_fill (raw : List (Nat × Rec)) (hne : raw ≠ [])
    (d : Nat) (h1 : minKey raw ≤ d) (h2 : d ≤ maxKey raw) :
    (∀ r, lookupA raw d = some r → lookupA (fill_data_gaps raw).1 d = some r) ∧
    (lookupA raw d = none →
      ∃ d' r, prevKey raw d = some d' ∧ lookupA raw d' = some r ∧
        lookupA (fill_data_gaps raw).1 d = some r) := by
  have hminmax : minKey raw ≤ maxKey raw := le_trans h1 h2
  have hfill : (fill_data_gaps raw).1 =
      (fillLoop raw (maxKey raw + 1 - minKey raw) [] (minKey raw)).1 := by
    simp [fill_data_gaps, hne]
  have hlk := fillLoop_lookup raw (maxKey raw + 1 - minKey raw) (minKey raw) [] d h1
    (by omega)
  constructor
  · intro r hr
    rw [hfill, hlk]
    congr 1
    have : d + 1 - minKey raw = (d - minKey raw) + 1 := by omega
    rw [this]
    exact curAt_present raw hr (d - minKey raw) (minKey raw) [] (by omega)
  · intro habs
    obtain ⟨d', hd'⟩ := prevKey_isSome hne h1 habs
    obtain ⟨hd'mem, hd'lt, hd'max⟩ := prevKey_spec hd'
    obtain ⟨r, hr⟩ := lookupA_isSome_of_mem hd'mem
    refine ⟨d', r, hd', hr, ?_⟩
    rw [hfill, hlk]
    congr 1
    have hgap : ∀ k, d' < k → k ≤ d' + (d - d') → lookupA raw k = none := by
      intro k hk1 hk2
      have hkd : k ≤ d := by omega
      rcases Nat.eq_or_lt_of_le hkd with hkd' | hkd'
      · subst hkd'; exact habs
      · cases hc : lookupA raw k with
        | none => rfl
        | some rk =>
          exfalso
          have := hd'max k (lookupA_mem_keys hc) (by omega)
          omega
    have heq : d + 1 - minKey raw = d' + (d - d') + 1 - minKey raw := by omega
    rw [heq]
    exact curAt_gap raw hr (d - d') (minKey raw) []
      (le_trans (minKey_le hd'mem) (le_refl _)) hgap

/-- The four-metal record of the specification example for 2024-01-01
(gold 6000.00, the other prices arbitrary but fixed). -/
def recJan1 : Rec :=
  [("gold", ⟨false, 600000, -2⟩), ("silver", ⟨false, 7612, -2⟩),
   ("platinum", ⟨false, 250000, -2⟩), ("palladium", ⟨false, 340000, -2⟩)]

/-- The four-metal record of the specification example for 2024-01-03
(gold 6010.50). -/
def recJan3 : Rec :=
  [("gold", ⟨false, 601050, -2⟩), ("silver", ⟨false, 7700, -2⟩),
   ("platinum", ⟨false, 251000, -2⟩), ("palladium", ⟨false, 341000, -2⟩)]

/-- The specification's example sparse series: records on 2024-01-01
(day number 738886) and 2024-01-03 (day number 738888) only. -/
def rawJan : List (Nat × Rec) := [(738886, recJan1), (738888, recJan3)]

/-- Witness for C1: the example series, queried at the absent date
2024-01-02 (day number 738887). -/
theorem fill_data_gaps_forward_fill_witness :
    (rawJan ≠ [] ∧ minKey rawJan ≤ 738887 ∧ 738887 ≤ maxKey rawJan) ∧
    ((∀ r, lookupA rawJan 738887 = some r →
        lookupA (fill_data_gaps rawJan).1 738887 = some r) ∧
     (lookupA rawJan 738887 = none →
        ∃ d' r, prevKey rawJan 738887 = some d' ∧ lookupA rawJan d' = some r ∧
          lookupA (fill_data_gaps rawJan).1 738887 = some r)) :=
  ⟨⟨by decide, by decide, by decide⟩,
   fill_data_gaps_forward_fill rawJan (by decide) 738887 (by decide) (by decide)⟩

lemma curAt_succ_some (raw : List (Nat × Rec)) {d q : Nat} {r : Rec}
    (h : d < q) (hl : lookupA raw d = some r) (cur : Rec) :
    curAt raw (q - d) cur d = curAt raw (q - (d + 1)) r (d + 1) := by
  have heq : q - d = (q - (d + 1)) + 1 := by omega
  rw [heq]
  simp [curAt, hl]

lemma curAt_succ_none (raw : List (Nat × Rec)) {d q : Nat}
    (h : d < q) (hl : lookupA raw d = none) (cur : Rec) :
    curAt raw (q - d) cur d = curAt raw (q - (d + 1)) cur (d + 1) := by
  have heq : q - d = (q - (d + 1)) + 1 := by omega
  rw [heq]
  simp [curAt, hl]

lemma curAt_ne_nil (raw : List (Nat × Rec))
    (hrec : ∀ p ∈ raw, p.2 ≠ ([] : Rec)) :
    ∀ (fuel : Nat) (cur : Rec) (d : Nat), cur ≠ [] → curAt raw fuel cur d ≠ [] := by
  intro fuel
  induction fuel with
  | zero => intro cur d h; simpa [curAt] using h
  | succ fuel ih =>
    intro cur d h
    cases hl : lookupA raw d with
    | some r => simp only [curAt, hl]; exact ih r (d + 1) (hrec _ (lookupA_mem hl))
    | none => simp only [curAt, hl]; exact ih cur (d + 1) h

lemma fillLoop_snd_mem (raw : List (Nat × Rec)) :
    ∀ (fuel d : Nat) (cur : Rec) (q : Nat),
      q ∈ (fillLoop raw fuel cur d).2 ↔
        (d ≤ q ∧ q < d + fuel ∧ lookupA raw q = none ∧
         curAt raw (q - d) cur d ≠ []) := by
  intro fuel
  induction fuel with
  | zero =>
    intro d cur q
    simp only [fillLoop, List.not_mem_nil, false_iff]
    rintro ⟨_, h2, _⟩
    omega
  | succ fuel ih =>
    intro d cur q
    by_cases hdq : q = d
    · subst hdq
      cases hl : lookupA raw q with
      | some r =>
        have hL : (fillLoop raw (fuel + 1) cur q).2 = (fillLoop raw fuel r (q + 1)).2 := by
          simp [fillLoop, hl]
        rw [hL, ih]
        constructor
        · rintro ⟨h1, _⟩; omega
        · rintro ⟨_, _, habs, _⟩
          exact Option.noConfusion habs
      | none =>
        have hL : (fillLoop raw (fuel + 1) cur q).2 =
            if cur = [] then (fillLoop raw fuel cur (q + 1)).2
            else q :: (fillLoop raw fuel cur (q + 1)).2 := by
          simp [fillLoop, hl]
        by_cases hc : cur = []
        · rw [hL, if_pos hc, ih]
          constructor
          · rintro ⟨h1, _⟩; omega
          · rintro ⟨_, _, _, hcur⟩
            exfalso
            apply hcur
            simp [curAt, hc]
        · rw [hL, if_neg hc]
          constructor
          · intro _
            refine ⟨le_refl _, by omega, rfl, ?_⟩
            simpa [curAt] using hc
          · intro _
            exact List.mem_cons_self _ _
    · cases hl : lookupA raw d with
      | some r =>
        have hL : (fillLoop raw (fuel + 1) cur d).2 = (fillLoop raw fuel r (d + 1)).2 := by
          simp [fillLoop, hl]
        rw [hL, ih]
        constructor
        · rintro ⟨h1, h2, h3, h4⟩
          refine ⟨by omega, by omega, h3, ?_⟩
          rw [curAt_succ_some raw (by omega) hl cur]
          exact h4
        · rintro ⟨h1, h2, h3, h4⟩
          have hlt : d < q := by
            rcases Nat.eq_or_lt_of_le h1 with h | h
            · exact absurd h.symm hdq
            · exact h
          refine ⟨by omega, by omega, h3, ?_⟩
          rw [curAt_succ_some raw hlt hl cur] at h4
          exact h4
      | none =>
        have hL : (fillLoop raw (fuel + 1) cur d).2 =
            if cur = [] then (fillLoop raw fuel cur (d + 1)).2
            else d :: (fillLoop raw fuel cur (d + 1)).2 := by
          simp [fillLoop, hl]
        have hmain : q ∈ (fillLoop raw fuel cur (d + 1)).2 ↔
            (d ≤ q ∧ q < d + (fuel + 1) ∧ lookupA raw q = none ∧
             curAt raw (q - d) cur d ≠ []) := by
          rw [ih]
          constructor
          · rintro ⟨h1, h2, h3, h4⟩
            refine ⟨by omega, by omega, h3, ?_⟩
            rw [curAt_succ_none raw (by omega) hl cur]
            exact h4
          · rintro ⟨h1, h2, h3, h4⟩
            have hlt : d < q := by
              rcases Nat.eq_or_lt_of_le h1 with h | h
              · exact absurd h.symm hdq
              · exact h
            refine ⟨by omega, by omega, h3, ?_⟩
            rw [curAt_succ_none raw hlt hl cur] at h4
            exact h4
        by_cases hc : cur = []
        · rw [hL, if_pos hc]
          exact hmain
        · rw [hL, if_neg hc, ← hmain]
          constructor
          · intro h
            rcases List.mem_cons.mp h with h | h
            · exact absurd h hdq
            · exact h
          · intro h
            exact List.mem_cons_of_mem _ h

/-- C3: for a non-empty sparse series whose records are all non-empty (the
data-model invariant: a record carries all four metals or is absent), the
synthesized-date set of `_fill_data_gaps` is exactly the set of dates in
`[minKey, maxKey]` that are absent from the sparse series. -/
theorem fill_data_gaps_synth (raw : List (Nat × Rec)) (hne : raw ≠ [])
    (hrec : ∀ p ∈ raw, p.2 ≠ ([] : Rec)) (q : Nat) :
    q ∈ (fill_data_gaps raw).2 ↔
      (minKey raw ≤ q ∧ q ≤ maxKey raw ∧ lookupA raw q = none) := by
  have hfill : (fill_data_gaps raw).2 =
      (fillLoop raw (maxKey raw + 1 - minKey raw) [] (minKey raw)).2 := by
    simp [fill_data_gaps, hne]
  have hminmax : minKey raw ≤ maxKey raw := le_maxKey (minKey_mem hne)
  rw [hfill, fillLoop_snd_mem]
  constructor
  · rintro ⟨h1, h2, h3, _⟩
    exact ⟨h1, by omega, h3⟩
  · rintro ⟨h1, h2, h3⟩
    refine ⟨h1, by omega, h3, ?_⟩
    have hq : minKey raw < q := by
      rcases Nat.eq_or_lt_of_le h1 with h | h
      · exfalso
        obtain ⟨r, hr⟩ := lookupA_isSome_of_mem (h ▸ minKey_mem hne)
        rw [hr] at h3
        exact Option.noConfusion h3
      · exact h
    obtain ⟨r0, hr0⟩ := lookupA_isSome_of_mem (minKey_mem hne)
    rw [curAt_succ_some raw hq hr0 []]
    exact curAt_ne_nil raw hrec _ r0 _ (hrec _ (lookupA_mem hr0))

/-- Witness for C3: in the example series, 2024-01-02 (day 738887) is
synthesized, being the one absent date between 2024-01-01 and 2024-01-03. -/
theorem fill_data_gaps_synth_witness :
    (rawJan ≠ [] ∧ ∀ p ∈ rawJan, p.2 ≠ ([] : Rec)) ∧
    (738887 ∈ (fill_data_gaps rawJan).2 ↔
      (minKey rawJan ≤ 738887 ∧ 738887 ≤ maxKey rawJan ∧
       lookupA rawJan 738887 = none)) :=
  ⟨⟨by decide, by decide⟩,
   fill_data_gaps_synth rawJan (by decide) (by decide) 738887⟩

/-- The ASCII digit character for a decimal digit (only digits `< 10`
arise). -/
def digitChar : Nat → Char
  | 0 => '0' | 1 => '1' | 2 => '2' | 3 => '3' | 4 => '4'
  | 5 => '5' | 6 => '6' | 7 => '7' | 8 => '8' | _ => '9'

/-- Little-endian base-10 digits of `n`, computed with explicit fuel so
that the definition is structural (the caller always passes `fuel ≥ n`,
which suffices since a number never has more digits than its value). -/
def natDigitsF : Nat → Nat → List Nat
  | 0, _ => []
  | fuel + 1, n => if n = 0 then [] else n % 10 :: natDigitsF fuel (n / 10)

/-- The big-endian decimal digit characters of `n` (empty for `0`). -/
def natChars (n : Nat) : List Char := ((natDigitsF n n).reverse).map digitChar

/-- The digit string of a Decimal coefficient: Python renders the
coefficient `0` as `"0"`. -/
def coeffChars (n : Nat) : List Char := if n = 0 then ['0'] else natChars n

/-- Numeric value of a big-endian list of ASCII digit characters (the
model of Python's `int(digit_string)`). -/
def digitsVal (ds : List Char) : Nat :=
  ds.foldl (fun a c => 10 * a + (c.toNat - 48)) 0

lemma digitChar_isDigit : ∀ d : Nat, (digitChar d).isDigit = true := by
  intro d
  match d with
  | 0 | 1 | 2 | 3 | 4 | 5 | 6 | 7 | 8 => rfl
  | n + 9 => rfl

lemma digitChar_toNat {d : Nat} (h : d < 10) : (digitChar d).toNat = 48 + d := by
  interval_cases d <;> rfl

lemma natDigitsF_eq {fuel n : Nat} (h : n ≤ fuel) :
    natDigitsF fuel n = Nat.digits 10 n := by
  induction fuel generalizing n with
  | zero =>
    have : n = 0 := by omega
    subst this
    simp [natDigitsF]
  | succ fuel ih =>
    by_cases hn : n = 0
    · subst hn
      simp [natDigitsF]
    · have hlt : n / 10 < n := Nat.div_lt_self (by omega) (by omega)
      have h1 : natDigitsF (fuel + 1) n = n % 10 :: natDigitsF fuel (n / 10) := by
        simp [natDigitsF, hn]
      rw [h1, ih (show n / 10 ≤ fuel by omega)]
      exact (Nat.digits_def' (by norm_num : (1:Nat) < 10) (by omega)).symm

lemma digitsVal_go (L : List Nat) (hL : ∀ d ∈ L, d < 10) (acc : Nat) :
    List.foldl (fun a c => 10 * a + (c.toNat - 48)) acc (L.reverse.map digitChar) =
      acc * 10 ^ L.length + Nat.ofDigits 10 L := by
  induction L generalizing acc with
  | nil => simp
  | cons d L ih =>
    have hd : d < 10 := hL d (List.mem_cons_self _ _)
    have hL' : ∀ x ∈ L, x < 10 := fun x hx => hL x (List.mem_cons_of_mem _ hx)
    rw [List.reverse_cons, List.map_append, List.foldl_append, ih hL']
    simp only [List.map_cons, List.map_nil, List.foldl_cons, List.foldl_nil,
      Nat.ofDigits_cons, List.length_cons, digitChar_toNat hd]
    have : 48 + d - 48 = d := by omega
    rw [this]
    ring

lemma digitsVal_natChars (n : Nat) : digitsVal (natChars n) = n := by
  unfold digitsVal natChars
  rw [natDigitsF_eq (le_refl n),
    digitsVal_go _ (fun d hd => Nat.digits_lt_base (by norm_num) hd) 0,
    Nat.ofDigits_digits]
  simp

lemma digitsVal_coeffChars (n : Nat) : digitsVal (coeffChars n) = n := by
  by_cases hn : n = 0
  · subst hn; rfl
  · simp only [coeffChars, if_neg hn]
    exact digitsVal_natChars n

lemma natChars_all_digit (n : Nat) : ∀ c ∈ natChars n, c.isDigit = true := by
  intro c hc
  unfold natChars at hc
  obtain ⟨d, _, hd⟩ := List.mem_map.mp hc
  rw [← hd]
  exact digitChar_isDigit d

lemma coeffChars_all_digit (n : Nat) : ∀ c ∈ coeffChars n, c.isDigit = true := by
  intro c hc
  unfold coeffChars at hc
  by_cases hn : n = 0
  · rw [if_pos hn] at hc
    simp at hc
    subst hc
    rfl
  · rw [if_neg hn] at hc
    exact natChars_all_digit n c hc

lemma natChars_ne_nil {n : Nat} (h : n ≠ 0) : natChars n ≠ [] := by
  unfold natChars
  intro hc
  have h1 : natDigitsF n n = [] := by
    have := congrArg List.length hc
    simpa using this
  rw [natDigitsF_eq (le_refl n)] at h1
  exact (Nat.digits_ne_nil_iff_ne_zero.mpr h) h1

lemma coeffChars_ne_nil (n : Nat) : coeffChars n ≠ [] := by
  unfold coeffChars
  by_cases hn : n = 0
  · simp [hn]
  · simp only [if_neg hn]
    exact natChars_ne_nil hn

/-- The digits of `'%+d' % i` (sign always printed), used by
`Decimal.__str__` for the exponent field. -/
def intSignedChars (i : Int) : List Char :=
  (if i < 0 then '-' else '+') :: coeffChars i.natAbs

/-- Model of `str(Decimal)` — CPython's `Decimal.__str__` (to-scientific-string)
for finite decimals, transcribed from `_pydecimal`: with `leftdigits =
exp + len(digits)`, the number is printed without an exponent when
`exp ≤ 0` and `leftdigits > -6` (placing the point `leftdigits` digits
from the left, with a leading `0.` and zero padding when `leftdigits ≤ 0`)
and in scientific notation (`dotplace = 1`) otherwise, followed by
`E%+d % (leftdigits - dotplace)` whenever `leftdigits ≠ dotplace`. -/
def decStr (x : PyDecimal) : List Char :=
  let ds := coeffChars x.coeff
  let n : Int := (ds.length : Int)
  let leftdigits : Int := x.exp + n
  let dotplace : Int := if x.exp ≤ 0 ∧ -6 < leftdigits then leftdigits else 1
  let body : List Char :=
    if dotplace ≤ 0 then
      '0' :: '.' :: (List.replicate (-dotplace).toNat '0' ++ ds)
    else if n ≤ dotplace then
      ds ++ List.replicate (dotplace - n).toNat '0'
    else
      ds.take dotplace.toNat ++ '.' :: ds.drop dotplace.toNat
  let expPart : List Char :=
    if leftdigits = dotplace then [] else 'E' :: intSignedChars (leftdigits - dotplace)
  (if x.sign then ['-'] else []) ++ (body ++ expPart)

/-- The whitespace characters removed by Python's `str.strip()` (the
ASCII ones; the serialized file never contains any whitespace). -/
def isSpaceChar (c : Char) : Bool :=
  c = ' ' || c = '\t' || c = '\n' || c = '\r' || c = '\x0b' || c = '\x0c'

/-- Model of `value.strip()` in `Decimal.__new__`. -/
def pyStrip (cs : List Char) : List Char :=
  ((cs.dropWhile isSpaceChar).reverse.dropWhile isSpaceChar).reverse

/-- Model of `value.replace("_", "")` in `Decimal.__new__`. -/
def pyNoUnderscore (cs : List Char) : List Char := cs.filter (fun c => c ≠ '_')

/-- The optional `[-+]` sign at the front of a numeric string. -/
def parseOptSign (cs : List Char) : Bool × List Char :=
  match cs with
  | [] => (false, [])
  | c :: r => if c = '-' then (true, r) else if c = '+' then (false, r) else (false, c :: r)

/-- The `[-+]?\d+` exponent digits after the `E`, anchored at the end of
the string. -/
def parseUExp (cs : List Char) : Option Int :=
  match cs with
  | [] => none
  | c :: r =>
    if c = '-' then
      if (!r.isEmpty) && r.all Char.isDigit then some (-(digitsVal r : Int)) else none
    else if c = '+' then
      if (!r.isEmpty) && r.all Char.isDigit then some ((digitsVal r : Int)) else none
    else
      if (c :: r).all Char.isDigit then some ((digitsVal (c :: r) : Int)) else none

/-- Assemble a Decimal from the matched groups of CPython's numeric-string
regular expression: `int` part `ip`, fractional part `fp` (requiring at
least one digit between them), optional `E`-exponent in `rest`; the
coefficient is `int(ip + fp)` and the exponent is `E - len(fp)`. -/
def finishNum (sg : Bool) (ip fp rest : List Char) : Option PyDecimal :=
  if ip.isEmpty && fp.isEmpty then none
  else
    match rest with
    | [] => some ⟨sg, digitsVal (ip ++ fp), -(fp.length : Int)⟩
    | c :: r =>
      if c = 'E' || c = 'e' then
        (parseUExp r).map (fun e => ⟨sg, digitsVal (ip ++ fp), e - fp.length⟩)
      else none

/-- The part of the numeric-string match after the optional sign: the
`\d*` integer part, the optional `\.\d*` fractional part, and the
remainder (an optional exponent field), assembled by `finishNum`. -/
def parseAfterSign (sg : Bool) (cs1 : List Char) : Option PyDecimal :=
  let ip := cs1.takeWhile Char.isDigit
  let r1 := cs1.dropWhile Char.isDigit
  match r1 with
  | [] => finishNum sg ip [] []
  | c :: r2 =>
    if c = '.' then
      finishNum sg ip (r2.takeWhile Char.isDigit) (r2.dropWhile Char.isDigit)
    else finishNum sg ip [] (c :: r2)

/-- The anchored numeric-string match of `Decimal.__new__` (the
`Inf`/`NaN` alternatives of the grammar produce non-finite values outside
this model and are mapped to `none`). -/
def parseDecCore (cs : List Char) : Option PyDecimal :=
  parseAfterSign (parseOptSign cs).1 (parseOptSign cs).2

/-- Model of `Decimal(value)` for a string argument: CPython strips whitespace,
removes underscores, and matches the numeric grammar. -/
def parseDecimal (cs : List Char) : Option PyDecimal :=
  parseDecCore (pyNoUnderscore (pyStrip cs))

/-- Model of `ParserCBRF._save_to_json` (src/metals.py lines 152-159): the
serialized content `{d: {m: str(p)}}`.  `json.dump`/`json.load` of this
string-to-string structure is an excluded identity I/O wrapper, so the
file content is modelled as the structured value itself. -/
def save_to_json (data : List (Nat × Rec)) : List (Nat × List (String × List Char)) :=
  data.map (fun dp => (dp.1, dp.2.map (fun mp => (mp.1, decStr mp.2))))

/-- The inner dictionary comprehension of `MetalPricesCBRF._load`:
`{m: Decimal(p) for m, p in pr.items()}` (a failing `Decimal()` raises,
modelled by `none`). -/
def loadRec : List (String × List Char) → Option Rec
  | [] => some []
  | mp :: ps =>
    match parseDecimal mp.2, loadRec ps with
    | some v, some r => some ((mp.1, v) :: r)
    | _, _ => none

/-- Model of `MetalPricesCBRF._load` (src/metals.py lines 177-186), restricted to
its data transformation: rebuild the date-to-record mapping with
`Decimal` values from the saved string file. -/
def load : List (Nat × List (String × List Char)) → Option (List (Nat × Rec))
  | [] => some []
  | dp :: ds =>
    match loadRec dp.2, load ds with
    | some r, some rest => some ((dp.1, r) :: rest)
    | _, _ => none

/-- Python `dict` assignment `acc[k] = v`: replace in place if the key
exists (keeping insertion order), otherwise append. -/
def insertA : List (Nat × Rec) → Nat → Rec → List (Nat × Rec)
  | [], k, v => [(k, v)]
  | (k0, v0) :: ps, k, v =>
    if k0 = k then (k0, v) :: ps else (k0, v0) :: insertA ps k v

/-- Python `acc.update(chunk)`: assign every pair of `chunk` in order. -/
def dictUpdate (m : List (Nat × Rec)) (c : List (Nat × Rec)) : List (Nat × Rec) :=
  c.foldl (fun acc kv => insertA acc kv.1 kv.2) m

/-- Model of `ParserCBRF.start` (src/metals.py lines 93-124), with the per-chunk
network results supplied as inputs: each element is `none` when
`_get_soup` exhausted its retries (the chunk is skipped) and `some c` for
the parsed chunk dictionary `c` otherwise.  Returns the Python return
value (`False` for abject failure, `True` for success) together with the
file written by `_save_to_json` (`none` when nothing is written). -/
def start (results : List (Option (List (Nat × Rec)))) :
    Bool × Option (List (Nat × List (String × List Char))) :=
  let raw := results.foldl
    (fun acc oc => match oc with | some c => dictUpdate acc c | none => acc) []
  if raw = [] then (false, none)
  else (true, some (save_to_json (fill_data_gaps raw).1))

lemma insertA_ne_nil (m : List (Nat × Rec)) (k : Nat) (v : Rec) :
    insertA m k v ≠ [] := by
  cases m with
  | nil => simp [insertA]
  | cons p ps =>
    obtain ⟨k0, v0⟩ := p
    by_cases h : k0 = k <;> simp [insertA, h]

lemma dictUpdate_eq_nil (c : List (Nat × Rec)) :
    ∀ m : List (Nat × Rec), dictUpdate m c = [] ↔ m = [] ∧ c = [] := by
  induction c with
  | nil => intro m; simp [dictUpdate]
  | cons kv c ih =>
    intro m
    have h1 : dictUpdate m (kv :: c) = dictUpdate (insertA m kv.1 kv.2) c := by
      simp [dictUpdate]
    rw [h1, ih]
    simp [insertA_ne_nil]

lemma startFold_eq_nil (results : List (Option (List (Nat × Rec)))) :
    ∀ acc : List (Nat × Rec),
      results.foldl
        (fun acc oc => match oc with | some c => dictUpdate acc c | none => acc) acc = [] ↔
      (acc = [] ∧ ∀ oc ∈ results, ∀ c, oc = some c → c = []) := by
  induction results with
  | nil => intro acc; simp
  | cons oc results ih =>
    intro acc
    rw [List.foldl_cons, ih]
    cases oc with
    | none =>
      simp only []
      constructor
      · rintro ⟨h1, h2⟩
        refine ⟨h1, ?_⟩
        intro oc hoc c hc
        rcases List.mem_cons.mp hoc with h | h
        · rw [h] at hc; exact Option.noConfusion hc
        · exact h2 oc h c hc
      · rintro ⟨h1, h2⟩
        exact ⟨h1, fun oc hoc c hc => h2 oc (List.mem_cons_of_mem _ hoc) c hc⟩
    | some ch =>
      simp only []
      rw [dictUpdate_eq_nil]
      constructor
      · rintro ⟨⟨h1, h3⟩, h2⟩
        refine ⟨h1, ?_⟩
        intro oc hoc c hc
        rcases List.mem_cons.mp hoc with h | h
        · rw [h] at hc
          injection hc with hc
          rw [← hc]
          exact h3
        · exact h2 oc h c hc
      · rintro ⟨h1, h2⟩
        exact ⟨⟨h1, h2 (some ch) (List.mem_cons_self _ _) ch rfl⟩,
          fun oc hoc c hc => h2 oc (List.mem_cons_of_mem _ hoc) c hc⟩

/-- C8: with the per-chunk fetch/parse results as inputs, `start` reports
failure (`False`) exactly when zero records were obtained across all
chunks, and it writes the persisted file exactly when it reports success. -/
theorem start_spec (results : List (Option (List (Nat × Rec)))) :
    ((start results).1 = false ↔ ∀ oc ∈ results, ∀ c, oc = some c → c = []) ∧
    ((start results).2 = none ↔ (start results).1 = false) := by
  by_cases hraw : results.foldl
      (fun acc oc => match oc with | some c => dictUpdate acc c | none => acc) [] = []
  · have h1 : start results = (false, none) := by
      simp only [start, hraw, if_pos]
    rw [h1]
    have h2 := (startFold_eq_nil results []).mp hraw
    exact ⟨⟨fun _ => h2.2, fun _ => rfl⟩, by simp⟩
  · have h1 : start results =
        (true, some (save_to_json (fill_data_gaps (results.foldl
          (fun acc oc => match oc with | some c => dictUpdate acc c | none => acc) [])).1)) := by
      simp only [start, if_neg hraw]
    rw [h1]
    constructor
    · constructor
      · intro h
        exact Bool.noConfusion h
      · intro hall
        exact absurd ((startFold_eq_nil results []).mpr ⟨rfl, hall⟩) hraw
    · constructor
      · intro h
        exact Option.noConfusion h
      · intro h
        exact Bool.noConfusion h

/-- An exact non-negative fraction `num / den` (denominator positive in
every value the program builds: always `1` or a power of `2` or `10`).
Used to model the exact values of finite Decimals and of IEEE-754
binary64 numbers without any floating-point approximation. -/
structure PosFrac where
  num : Nat
  den : Nat
deriving DecidableEq, Repr

/-- Two fractions denote the same rational value (cross multiplication). -/
def valEqF (a b : PosFrac) : Prop := a.num * b.den = b.num * a.den

instance (a b : PosFrac) : Decidable (valEqF a b) := by
  unfold valEqF
  infer_instance

/-- The magnitude `coeff × 10^exp` of a Decimal as an exact fraction. -/
def magF (d : PyDecimal) : PosFrac :=
  if 0 ≤ d.exp then ⟨d.coeff * 10 ^ d.exp.toNat, 1⟩ else ⟨d.coeff, 10 ^ (-d.exp).toNat⟩

/-- Floor of `log₂ n`, with explicit fuel (each step halves `n`, so any fuel
above the bit length of `n` is enough; callers pass 4000, far beyond the
IEEE-754 binary64 range). -/
def natLog2F : Nat → Nat → Nat
  | 0, _ => 0
  | f + 1, n => if 2 ≤ n then natLog2F f (n / 2) + 1 else 0

/-- Ceiling of `log₂ n`, with explicit fuel. -/
def natClog2F : Nat → Nat → Nat
  | 0, _ => 0
  | f + 1, n => if 2 ≤ n then natClog2F f ((n + 1) / 2) + 1 else 0

/-- Floor of `log₂ (num/den)` for a positive fraction: for values `≥ 1` the floor
log of the integer part, for values `< 1` minus the ceiling log of the
reciprocal's ceiling. -/
def ilog2F (f : PosFrac) : Int :=
  if f.den ≤ f.num then (natLog2F 4000 (f.num / f.den) : Int)
  else -(natClog2F 4000 ((f.den + f.num - 1) / f.num) : Int)

/-- Round a non-negative fraction to the nearest integer, ties to even —
the rounding used both by CPython's `float(Decimal)` conversion and by its
correctly-rounded `%.4f` formatting of a double. -/
def roundHalfEvenF (f : PosFrac) : Nat :=
  if 2 * (f.num % f.den) < f.den then f.num / f.den
  else if f.den < 2 * (f.num % f.den) then f.num / f.den + 1
  else if (f.num / f.den) % 2 = 0 then f.num / f.den else f.num / f.den + 1

/-- The quotient `f / 2^k` as an exact fraction. -/
def divPow2 (f : PosFrac) (k : Int) : PosFrac :=
  if 0 ≤ k then ⟨f.num, f.den * 2 ^ k.toNat⟩ else ⟨f.num * 2 ^ (-k).toNat, f.den⟩

/-- The exact value of the IEEE-754 binary64 number nearest to the
non-negative fraction `f`: the model of CPython's `float(Decimal)`
conversion (correctly rounded, ties to even, subnormals flushed to the
minimum exponent −1022).  Overflow (`≥ 2^1024`, where Python raises
`OverflowError`) is not modelled: the result is the rounded value with an
unbounded exponent. -/
def roundToDouble (f : PosFrac) : PosFrac :=
  if f.num = 0 then ⟨0, 1⟩
  else
    let e : Int := max (ilog2F f) (-1022)
    let m : Nat := roundHalfEvenF (divPow2 f (e - 52))
    if 0 ≤ e - 52 then ⟨m * 2 ^ (e - 52).toNat, 1⟩ else ⟨m, 2 ^ (52 - e).toNat⟩

/-- Model of `f"{x:.4f}"` for a non-negative exact value `x`: the correctly rounded
(ties to even) 4-decimal fixed-point rendering, with at least one integer
digit. -/
def fixed4mag (f : PosFrac) : List Char :=
  let n : Nat := roundHalfEvenF ⟨f.num * 10000, f.den⟩
  coeffChars (n / 10000) ++ '.' ::
    (List.replicate (4 - (natChars (n % 10000)).length) '0' ++ natChars (n % 10000))

/-- Model of `.replace(".", ",")` on the formatted string. -/
def pyReplaceDot (cs : List Char) : List Char :=
  cs.map (fun c => if c = '.' then ',' else c)

/-- Model of `format_price(price)` (src/utils.py lines 3-5):
`f"{float(price):.4f}".replace(".", ",")` — the Decimal is converted to a
binary64 float first, then formatted with 4 decimal places and the Russian
comma separator.  The sign is printed exactly when the Decimal's sign bit
is set (CPython's `float(Decimal)` preserves the sign, including on signed
zeros). -/
def format_price (d : PyDecimal) : List Char :=
  pyReplaceDot ((if d.sign then ['-'] else []) ++ fixed4mag (roundToDouble (magF d)))

/-- Modelled from the spec's words (for comparison with `format_price`):
a fixed 4-decimal-place rendering whose numeric value is the exact decimal
value rounded to 4 places, with no round-trip through binary floating
point. -/
def specExactFormat (d : PyDecimal) : List Char :=
  pyReplaceDot ((if d.sign then ['-'] else []) ++ fixed4mag (magF d))

lemma magF_den_pos (d : PyDecimal) : 0 < (magF d).den := by
  unfold magF
  by_cases h : 0 ≤ d.exp
  · simp [h]
  · simp only [if_neg h]
    exact Nat.pow_pos (by norm_num)

lemma roundToDouble_den_pos (f : PosFrac) : 0 < (roundToDouble f).den := by
  unfold roundToDouble
  by_cases h0 : f.num = 0
  · simp [h0]
  · simp only [if_neg h0]
    by_cases he : 0 ≤ max (ilog2F f) (-1022) - 52
    · simp [he]
    · simp only [if_neg he]
      exact Nat.pow_pos (by norm_num)

lemma half_lt_congr {x y u v : Nat} (h : x * v = u * y) (hy : 0 < y) (hv : 0 < v) :
    (2 * x < y ↔ 2 * u < v) := by
  constructor
  · intro hc
    by_contra hc'
    push_neg at hc'
    nlinarith
  · intro hc
    by_contra hc'
    push_neg at hc'
    nlinarith

lemma half_gt_congr {x y u v : Nat} (h : x * v = u * y) (hy : 0 < y) (hv : 0 < v) :
    (y < 2 * x ↔ v < 2 * u) := by
  constructor
  · intro hc
    by_contra hc'
    push_neg at hc'
    nlinarith
  · intro hc
    by_contra hc'
    push_neg at hc'
    nlinarith

lemma roundHalfEvenF_congr {a b : PosFrac} (ha : 0 < a.den) (hb : 0 < b.den)
    (h : a.num * b.den = b.num * a.den) : roundHalfEvenF a = roundHalfEvenF b := by
  obtain ⟨A, B⟩ := a
  obtain ⟨C, D⟩ := b
  simp only at ha hb h
  have e2 : A / B = C / D := by
    have h1 : A * D / (B * D) = A / B := Nat.mul_div_mul_right A B hb
    have h2 : C * B / (D * B) = C / D := Nat.mul_div_mul_right C D ha
    rw [← h1, h, ← h2, Nat.mul_comm B D]
  have e1 : A % B * D = C % D * B := by
    have h1 : A * D % (B * D) = A % B * D := Nat.mul_mod_mul_right D A B
    have h2 : C * B % (D * B) = C % D * B := Nat.mul_mod_mul_right B C D
    rw [← h1, ← h2, h, Nat.mul_comm B D]
  have c1 : (2 * (A % B) < B) ↔ (2 * (C % D) < D) := half_lt_congr e1 ha hb
  have c2 : (B < 2 * (A % B)) ↔ (D < 2 * (C % D)) := half_gt_congr e1 ha hb
  simp only [roundHalfEvenF]
  rw [e2]
  by_cases hx : 2 * (A % B) < B
  · rw [if_pos hx, if_pos (c1.mp hx)]
  · rw [if_neg hx, if_neg ((not_iff_not.mpr c1).mp hx)]
    by_cases hz : B < 2 * (A % B)
    · rw [if_pos hz, if_pos (c2.mp hz)]
    · rw [if_neg hz, if_neg ((not_iff_not.mpr c2).mp hz)]

lemma fixed4mag_congr {a b : PosFrac} (ha : 0 < a.den) (hb : 0 < b.den)
    (h : a.num * b.den = b.num * a.den) : fixed4mag a = fixed4mag b := by
  have h' : a.num * 10000 * b.den = b.num * 10000 * a.den := by
    rw [Nat.mul_right_comm, h, Nat.mul_right_comm]
  have key : roundHalfEvenF ⟨a.num * 10000, a.den⟩ = roundHalfEvenF ⟨b.num * 10000, b.den⟩ :=
    roundHalfEvenF_congr ha hb h'
  simp only [fixed4mag]
  rw [key]

/-- C5 counterexample: for the price `Decimal('0.00005')` the code's
`format_price` (which converts through a binary64 float) renders
`"0,0001"`, while the exact decimal value rounded to 4 places renders
`"0,0000"` — the format layer does round-trip through native binary
floating point and does not preserve the exact decimal value. -/
theorem format_price_float_roundtrip_ce :
    format_price ⟨false, 5, -5⟩ = ("0,0001").toList ∧
    specExactFormat ⟨false, 5, -5⟩ = ("0,0000").toList ∧
    format_price ⟨false, 5, -5⟩ ≠ specExactFormat ⟨false, 5, -5⟩ :=
  ⟨by decide, by decide, by decide⟩

/-- C5 (amended): `format_price` renders every price as a fixed
4-decimal-place comma-separated string of the IEEE-754 binary64 value
nearest to the price — the value is round-tripped through native binary
floating point; whenever the price's magnitude is exactly representable
as a binary64 (in particular for all actual CBRF fixings, which have few
significant digits), this agrees with the exact decimal value rounded to
4 places. -/
theorem format_price_exact_on_representable (d : PyDecimal)
    (h : valEqF (roundToDouble (magF d)) (magF d)) :
    format_price d = specExactFormat d := by
  unfold format_price specExactFormat
  rw [fixed4mag_congr (roundToDouble_den_pos (magF d)) (magF_den_pos d) h]

/-- Witness for the amended C5 at the price `Decimal('6000.00')`, whose
magnitude 6000 is exactly representable as a binary64. -/
theorem format_price_exact_on_representable_witness :
    valEqF (roundToDouble (magF ⟨false, 600000, -2⟩)) (magF ⟨false, 600000, -2⟩) ∧
    format_price ⟨false, 600000, -2⟩ = specExactFormat ⟨false, 600000, -2⟩ :=
  ⟨by decide, format_price_exact_on_representable ⟨false, 600000, -2⟩ (by decide)⟩

/-- The display formatting applied to a record by every query-façade
lookup: `{m: format_price(p) for m, p in pr.items()}`. -/
def formatRec (r : Rec) : List (String × List Char) :=
  r.map (fun mp => (mp.1, format_price mp.2))

/-- Model of `MetalPricesCBRF.prices_last` (src/metals.py lines 193-197): `(None,
None)` for an empty store, otherwise the formatted record stored under
`sorted(self.data)[-1]` together with that date. -/
def prices_last (db : List (Nat × Rec)) :
    Option (List (String × List Char)) × Option Nat :=
  match ((keysOf db).insertionSort (fun a b => a ≤ b)).getLast? with
  | none => (none, none)
  | some last => ((lookupA db last).map formatRec, some last)

/-- Model of `MetalPricesCBRF.prices_range` (src/metals.py lines 199-204): walk
`sorted(self.data.items())` and keep the formatted records with
`d_from <= d <= d_to`.  (`sorted` on the items of a dict orders by key:
the keys are distinct, so the tuple comparison never reaches the values;
insertion sort is stable, hence produces the same list.) -/
def prices_range (db : List (Nat × Rec)) (dfrom dto : Nat) :
    List (Nat × List (String × List Char)) :=
  ((db.insertionSort (fun a b => a.1 ≤ b.1)).filter
      (fun p => decide (dfrom ≤ p.1) && decide (p.1 ≤ dto))).map
    (fun p => (p.1, formatRec p.2))

instance : IsTotal (Nat × Rec) (fun a b : Nat × Rec => a.1 ≤ b.1) :=
  ⟨fun a b => Nat.le_total a.1 b.1⟩

instance : IsTrans (Nat × Rec) (fun a b : Nat × Rec => a.1 ≤ b.1) :=
  ⟨fun _ _ _ => Nat.le_trans⟩

lemma mem_iff_lookupA {db : List (Nat × Rec)} (hnd : (keysOf db).Nodup)
    {d : Nat} {r : Rec} : (d, r) ∈ db ↔ lookupA db d = some r := by
  induction db with
  | nil => simp [lookupA]
  | cons p ps ih =>
    obtain ⟨k, v⟩ := p
    have hk : k ∉ keysOf ps := (List.nodup_cons.mp hnd).1
    have hnd' : (keysOf ps).Nodup := (List.nodup_cons.mp hnd).2
    by_cases hkd : k = d
    · subst hkd
      constructor
      · intro hm
        rcases List.mem_cons.mp hm with hm | hm
        · injection hm with h1 h2
          simp [lookupA, h2]
        · exact absurd (List.mem_map_of_mem Prod.fst hm) hk
      · intro hs
        have hv : lookupA ((k, v) :: ps) k = some v := by simp [lookupA]
        rw [hv] at hs
        injection hs with hs
        rw [← hs]
        exact List.mem_cons_self _ _
    · simp only [lookupA, if_neg hkd]
      rw [← ih hnd']
      constructor
      · intro hm
        rcases List.mem_cons.mp hm with hm | hm
        · exact absurd (congrArg Prod.fst hm).symm hkd
        · exact hm
      · intro hm
        exact List.mem_cons_of_mem _ hm

lemma exists_getLast {l : List Nat} (h : l ≠ []) : ∃ m, l.getLast? = some m :=
  ⟨l.getLast h, List.getLast?_eq_getLast l h⟩

lemma getLast?_mem_of_some {l : List Nat} {m : Nat} (h : l.getLast? = some m) :
    m ∈ l := by
  induction l with
  | nil => simp at h
  | cons a t ih =>
    cases t with
    | nil =>
      simp [List.getLast?] at h
      simp [h]
    | cons b t' =>
      rw [List.getLast?_cons_cons] at h
      exact List.mem_cons_of_mem _ (ih h)

lemma sorted_le_getLast {m : Nat} :
    ∀ {l : List Nat}, List.Pairwise (fun a b : Nat => a ≤ b) l →
      l.getLast? = some m → ∀ x ∈ l, x ≤ m := by
  intro l
  induction l with
  | nil => intro _ _ x hx; simp at hx
  | cons a t ih =>
    intro hp hlast x hx
    cases t with
    | nil =>
      simp [List.getLast?] at hlast
      rcases List.mem_singleton.mp hx with hx
      omega
    | cons b t' =>
      rw [List.getLast?_cons_cons] at hlast
      have hp' := (List.pairwise_cons.mp hp).2
      rcases List.mem_cons.mp hx with hx | hx
      · subst hx
        have hm : m ∈ b :: t' := getLast?_mem_of_some hlast
        exact (List.pairwise_cons.mp hp).1 m hm
      · exact ih hp' hlast x hx

/-- The characterisation of `prices_last` on a non-empty store, shared by
the latest-lookup claims. -/
lemma prices_last_char (db : List (Nat × Rec)) (hne : db ≠ []) :
    ∃ m r, lookupA db m = some r ∧ m ∈ keysOf db ∧ (∀ k ∈ keysOf db, k ≤ m) ∧
      prices_last db = (some (formatRec r), some m) := by
  have hkne : keysOf db ≠ [] := by
    cases db with
    | nil => exact absurd rfl hne
    | cons p ps => simp [keysOf]
  have hsne : (keysOf db).insertionSort (fun a b => a ≤ b) ≠ [] := by
    intro hnil
    have hperm := List.perm_insertionSort (fun a b : Nat => a ≤ b) (keysOf db)
    rw [hnil] at hperm
    exact hkne (List.Perm.eq_nil hperm.symm)
  obtain ⟨m, hm⟩ := exists_getLast hsne
  have hmem : m ∈ keysOf db := by
    have h1 := getLast?_mem_of_some hm
    exact (List.perm_insertionSort (fun a b : Nat => a ≤ b) (keysOf db)).subset h1
  have hmax : ∀ k ∈ keysOf db, k ≤ m := by
    intro k hk
    have hk' : k ∈ (keysOf db).insertionSort (fun a b => a ≤ b) :=
      ((List.perm_insertionSort (fun a b : Nat => a ≤ b) (keysOf db)).mem_iff).mpr hk
    exact sorted_le_getLast (List.sorted_insertionSort _ _) hm k hk'
  obtain ⟨r, hr⟩ := lookupA_isSome_of_mem hmem
  refine ⟨m, r, hr, hmem, hmax, ?_⟩
  unfold prices_last
  rw [hm]
  simp [hr]

/-- C7: for a non-empty store, `prices_last` returns the formatted record
stored under the maximum date key, together with that date. -/
theorem prices_last_spec (db : List (Nat × Rec)) (hne : db ≠ []) :
    ∃ m r, lookupA db m = some r ∧ m ∈ keysOf db ∧ (∀ k ∈ keysOf db, k ≤ m) ∧
      prices_last db = (some (formatRec r), some m) :=
  prices_last_char db hne

/-- Witness for C7 at the example series. -/
theorem prices_last_spec_witness :
    rawJan ≠ [] ∧
    (∃ m r, lookupA rawJan m = some r ∧ m ∈ keysOf rawJan ∧
      (∀ k ∈ keysOf rawJan, k ≤ m) ∧
      prices_last rawJan = (some (formatRec r), some m)) :=
  ⟨by decide, prices_last_spec rawJan (by decide)⟩

/-- C9: `prices_last` on the empty store returns `(None, None)` rather
than raising, and a `None` first component occurs exactly on the empty
store. -/
theorem prices_last_empty_spec :
    prices_last ([] : List (Nat × Rec)) = (none, none) ∧
    ∀ db : List (Nat × Rec), ((prices_last db).1 = none ↔ db = []) := by
  constructor
  · rfl
  · intro db
    constructor
    · intro h
      by_contra hne
      obtain ⟨m, r, -, -, -, hpl⟩ := prices_last_char db hne
      rw [hpl] at h
      exact Option.noConfusion h
    · intro h
      subst h
      rfl

/-- C6: for a store with distinct date keys and `d_from ≤ d_to`,
`prices_range` returns exactly the formatted records whose dates lie in
`[d_from, d_to]` inclusive, in ascending date order, and the empty list
when no stored date falls in the interval. -/
theorem prices_range_spec (db : List (Nat × Rec)) (hnd : (keysOf db).Nodup)
    (dfrom dto : Nat) (hle : dfrom ≤ dto) :
    List.Pairwise (fun a b : Nat × List (String × List Char) => a.1 ≤ b.1)
      (prices_range db dfrom dto) ∧
    (∀ d fr, (d, fr) ∈ prices_range db dfrom dto ↔
      (dfrom ≤ d ∧ d ≤ dto ∧ ∃ r, lookupA db d = some r ∧ fr = formatRec r)) ∧
    ((∀ p ∈ db, ¬(dfrom ≤ p.1 ∧ p.1 ≤ dto)) → prices_range db dfrom dto = []) := by
  have hperm := List.perm_insertionSort (fun a b : Nat × Rec => a.1 ≤ b.1) db
  refine ⟨?_, ?_, ?_⟩
  · unfold prices_range
    rw [List.pairwise_map]
    exact List.Pairwise.filter _ (List.sorted_insertionSort _ db)
  · intro d fr
    unfold prices_range
    rw [List.mem_map]
    constructor
    · rintro ⟨p, hp, hpe⟩
      obtain ⟨hpmem, hpcond⟩ := List.mem_filter.mp hp
      have hcond : dfrom ≤ p.1 ∧ p.1 ≤ dto := by
        simpa using hpcond
      injection hpe with h1 h2
      subst h1
      refine ⟨hcond.1, hcond.2, p.2, ?_, h2.symm⟩
      have hmem : (p.1, p.2) ∈ db := hperm.subset (by simpa using hpmem)
      exact (mem_iff_lookupA hnd).mp hmem
    · rintro ⟨h1, h2, r, hr, hfr⟩
      refine ⟨(d, r), ?_, ?_⟩
      · rw [List.mem_filter]
        constructor
        · exact hperm.mem_iff.mpr ((mem_iff_lookupA hnd).mpr hr)
        · simpa using ⟨h1, h2⟩
      · rw [hfr]
  · intro hnone
    unfold prices_range
    have hf : (db.insertionSort (fun a b : Nat × Rec => a.1 ≤ b.1)).filter
        (fun p => decide (dfrom ≤ p.1) && decide (p.1 ≤ dto)) = [] := by
      rw [List.filter_eq_nil_iff]
      intro p hp
      have : p ∈ db := hperm.subset hp
      simpa using hnone p this
    rw [hf]
    rfl

/-- Witness for C6 at the example series over the range
`[2024-01-01, 2024-01-02]`. -/
theorem prices_range_spec_witness :
    ((keysOf rawJan).Nodup ∧ 738886 ≤ 738887) ∧
    (List.Pairwise (fun a b : Nat × List (String × List Char) => a.1 ≤ b.1)
      (prices_range rawJan 738886 738887) ∧
    (∀ d fr, (d, fr) ∈ prices_range rawJan 738886 738887 ↔
      (738886 ≤ d ∧ d ≤ 738887 ∧ ∃ r, lookupA rawJan d = some r ∧ fr = formatRec r)) ∧
    ((∀ p ∈ rawJan, ¬(738886 ≤ p.1 ∧ p.1 ≤ 738887)) →
      prices_range rawJan 738886 738887 = [])) :=
  ⟨⟨by decide, by decide⟩,
   prices_range_spec rawJan (by decide) 738886 738887 (by decide)⟩

/-- C10: for any date-range arguments with `d_from > d_to`, `prices_range`
returns the empty list without raising — the query interface imposes no
`start ≤ end` precondition. -/
theorem prices_range_empty_on_inverted (db : List (Nat × Rec)) (dfrom dto : Nat)
    (h : dto < dfrom) : prices_range db dfrom dto = [] := by
  unfold prices_range
  have hf : (db.insertionSort (fun a b : Nat × Rec => a.1 ≤ b.1)).filter
      (fun p => decide (dfrom ≤ p.1) && decide (p.1 ≤ dto)) = [] := by
    rw [List.filter_eq_nil_iff]
    intro p hp
    simp only [Bool.and_eq_true, decide_eq_true_eq]
    omega
  rw [hf]
  rfl

/-- Witness for C10: an inverted range on the example series. -/
theorem prices_range_empty_on_inverted_witness :
    3 < 5 ∧ prices_range rawJan 5 3 = [] :=
  ⟨by decide, prices_range_empty_on_inverted rawJan 5 3 (by decide)⟩

lemma takeWhile_append_of (p : Char → Bool) :
    ∀ (l r : List Char), (∀ c ∈ l, p c = true) →
      (∀ c, r.head? = some c → p c = false) → (l ++ r).takeWhile p = l := by
  intro l
  induction l with
  | nil =>
    intro r _ hr
    cases r with
    | nil => rfl
    | cons c r' =>
      simp [List.takeWhile_cons, hr c rfl]
  | cons a l ih =>
    intro r hl hr
    have ha : p a = true := hl a (List.mem_cons_self _ _)
    simp only [List.cons_append, List.takeWhile_cons, ha, if_pos]
    rw [ih r (fun c hc => hl c (List.mem_cons_of_mem _ hc)) hr]

lemma dropWhile_append_of (p : Char → Bool) :
    ∀ (l r : List Char), (∀ c ∈ l, p c = true) →
      (∀ c, r.head? = some c → p c = false) → (l ++ r).dropWhile p = r := by
  intro l
  induction l with
  | nil =>
    intro r _ hr
    cases r with
    | nil => rfl
    | cons c r' =>
      simp only [List.nil_append, List.dropWhile_cons, hr c rfl]
      simp
  | cons a l ih =>
    intro r hl hr
    have ha : p a = true := hl a (List.mem_cons_self _ _)
    simp only [List.cons_append, List.dropWhile_cons, ha, if_pos]
    exact ih r (fun c hc => hl c (List.mem_cons_of_mem _ hc)) hr

lemma dropWhile_of_none (p : Char → Bool) (l : List Char)
    (h : ∀ c ∈ l, p c = false) : l.dropWhile p = l := by
  cases l with
  | nil => rfl
  | cons a t =>
    simp only [List.dropWhile_cons, h a (List.mem_cons_self _ _)]
    simp

lemma pyStrip_id {l : List Char} (h : ∀ c ∈ l, isSpaceChar c = false) :
    pyStrip l = l := by
  unfold pyStrip
  rw [dropWhile_of_none _ l h,
    dropWhile_of_none _ l.reverse (fun c hc => h c (List.mem_reverse.mp hc)),
    List.reverse_reverse]

lemma pyNoUnderscore_id {l : List Char} (h : ∀ c ∈ l, c ≠ '_') :
    pyNoUnderscore l = l := by
  unfold pyNoUnderscore
  rw [List.filter_eq_self]
  intro a ha
  simpa using h a ha

lemma digitChar_clean (x : Nat) :
    isSpaceChar (digitChar x) = false ∧ digitChar x ≠ '_' := by
  match x with
  | 0 | 1 | 2 | 3 | 4 | 5 | 6 | 7 | 8 => exact ⟨rfl, by decide⟩
  | n + 9 =>
    have h9 : digitChar (n + 9) = '9' := rfl
    rw [h9]
    exact ⟨rfl, by decide⟩

lemma coeffChars_clean (k : Nat) :
    ∀ c ∈ coeffChars k, isSpaceChar c = false ∧ c ≠ '_' := by
  intro c hc
  unfold coeffChars at hc
  by_cases hk : k = 0
  · rw [if_pos hk] at hc
    simp at hc
    subst hc
    exact ⟨rfl, by decide⟩
  · rw [if_neg hk] at hc
    unfold natChars at hc
    obtain ⟨x, _, hx⟩ := List.mem_map.mp hc
    rw [← hx]
    exact digitChar_clean x

lemma intSignedChars_clean (i : Int) :
    ∀ c ∈ intSignedChars i, isSpaceChar c = false ∧ c ≠ '_' := by
  intro c hc
  unfold intSignedChars at hc
  rcases List.mem_cons.mp hc with hc | hc
  · subst hc
    by_cases hi : i < 0
    · rw [if_pos hi]
      exact ⟨rfl, by decide⟩
    · rw [if_neg hi]
      exact ⟨rfl, by decide⟩
  · exact coeffChars_clean _ c hc

lemma decStr_body_clean (dp : Int) (ds : List Char)
    (hds : ∀ c ∈ ds, isSpaceChar c = false ∧ c ≠ '_') :
    ∀ c ∈ (if dp ≤ 0 then '0' :: '.' :: (List.replicate (-dp).toNat '0' ++ ds)
           else if (ds.length : Int) ≤ dp then
             ds ++ List.replicate (dp - ds.length).toNat '0'
           else ds.take dp.toNat ++ '.' :: ds.drop dp.toNat),
      isSpaceChar c = false ∧ c ≠ '_' := by
  intro c hc
  by_cases h1 : dp ≤ 0
  · rw [if_pos h1] at hc
    rcases List.mem_cons.mp hc with hc | hc
    · subst hc; exact ⟨rfl, by decide⟩
    rcases List.mem_cons.mp hc with hc | hc
    · subst hc; exact ⟨rfl, by decide⟩
    rcases List.mem_append.mp hc with hc | hc
    · rw [List.eq_of_mem_replicate hc]; exact ⟨rfl, by decide⟩
    · exact hds c hc
  · rw [if_neg h1] at hc
    by_cases h2 : (ds.length : Int) ≤ dp
    · rw [if_pos h2] at hc
      rcases List.mem_append.mp hc with hc | hc
      · exact hds c hc
      · rw [List.eq_of_mem_replicate hc]; exact ⟨rfl, by decide⟩
    · rw [if_neg h2] at hc
      rcases List.mem_append.mp hc with hc | hc
      · exact hds c (List.take_subset _ _ hc)
      rcases List.mem_cons.mp hc with hc | hc
      · subst hc; exact ⟨rfl, by decide⟩
      · exact hds c (List.drop_subset _ _ hc)

lemma decStr_clean (d : PyDecimal) :
    ∀ c ∈ decStr d, isSpaceChar c = false ∧ c ≠ '_' := by
  intro c hc
  unfold decStr at hc
  rcases List.mem_append.mp hc with hc | hc
  · by_cases hs : d.sign
    · rw [if_pos hs] at hc
      simp at hc
      subst hc
      exact ⟨rfl, by decide⟩
    · rw [if_neg hs] at hc
      simp at hc
  · rcases List.mem_append.mp hc with hc | hc
    · exact decStr_body_clean _ _ (coeffChars_clean _) c hc
    · by_cases he : d.exp + ((coeffChars d.coeff).length : Int) =
          (if d.exp ≤ 0 ∧ -6 < d.exp + ((coeffChars d.coeff).length : Int)
           then d.exp + ((coeffChars d.coeff).length : Int) else 1)
      · rw [if_pos he] at hc
        simp at hc
      · rw [if_neg he] at hc
        rcases List.mem_cons.mp hc with hc | hc
        · subst hc; exact ⟨rfl, by decide⟩
        · exact intSignedChars_clean _ c hc

lemma digitsVal_foldl_acc (b : List Char) :
    ∀ acc : Nat, List.foldl (fun a c => 10 * a + (c.toNat - 48)) acc b =
      acc * 10 ^ b.length + digitsVal b := by
  induction b with
  | nil => intro acc; simp [digitsVal]
  | cons c b ih =>
    intro acc
    have h1 : digitsVal (c :: b) = (c.toNat - 48) * 10 ^ b.length + digitsVal b := by
      rw [show digitsVal (c :: b) =
          List.foldl (fun a c => 10 * a + (c.toNat - 48)) (10 * 0 + (c.toNat - 48)) b from
            rfl,
        ih (10 * 0 + (c.toNat - 48))]
      ring_nf
    rw [List.foldl_cons, ih (10 * acc + (c.toNat - 48)), h1, List.length_cons]
    ring

lemma digitsVal_append (a b : List Char) :
    digitsVal (a ++ b) = digitsVal a * 10 ^ b.length + digitsVal b := by
  unfold digitsVal
  rw [List.foldl_append]
  exact digitsVal_foldl_acc b _

lemma digitsVal_cons_zero (l : List Char) : digitsVal ('0' :: l) = digitsVal l := by
  have h0 : (10 * 0 + ('0'.toNat - 48)) = 0 := by decide
  rw [show digitsVal ('0' :: l) =
      List.foldl (fun a c => 10 * a + (c.toNat - 48)) (10 * 0 + ('0'.toNat - 48)) l from rfl,
    h0]
  rfl

lemma digitsVal_replicate_zero (k : Nat) (l : List Char) :
    digitsVal (List.replicate k '0' ++ l) = digitsVal l := by
  induction k with
  | zero => simp
  | succ k ih =>
    rw [List.replicate_succ, List.cons_append, digitsVal_cons_zero, ih]

lemma ne_sign_of_isDigit {c : Char} (h : c.isDigit = true) : c ≠ '-' ∧ c ≠ '+' := by
  constructor
  · intro hc
    subst hc
    exact absurd h (by decide)
  · intro hc
    subst hc
    exact absurd h (by decide)

lemma parseOptSign_eq (sg : Bool) (body : List Char)
    (hhead : ∀ c, body.head? = some c → (c ≠ '-' ∧ c ≠ '+')) :
    parseOptSign ((if sg then ['-'] else []) ++ body) = (sg, body) := by
  cases sg with
  | true =>
    simp only [if_pos, List.cons_append, List.nil_append]
    rfl
  | false =>
    simp only [Bool.false_eq_true, if_neg, List.nil_append]
    cases body with
    | nil => rfl
    | cons c r =>
      obtain ⟨h1, h2⟩ := hhead c rfl
      simp [parseOptSign, h1, h2]

lemma parseDecCore_split (sg : Bool) (body : List Char)
    (hhead : ∀ c, body.head? = some c → (c ≠ '-' ∧ c ≠ '+')) :
    parseDecCore ((if sg then ['-'] else []) ++ body) = parseAfterSign sg body := by
  unfold parseDecCore
  rw [parseOptSign_eq sg body hhead]

lemma parseUExp_intSignedChars {i : Int} (h : i ≠ 0) :
    parseUExp (intSignedChars i) = some i := by
  have h1 : coeffChars i.natAbs ≠ [] := coeffChars_ne_nil _
  have h2 : (coeffChars i.natAbs).all Char.isDigit = true := by
    rw [List.all_eq_true]
    exact coeffChars_all_digit _
  have h3 : (coeffChars i.natAbs).isEmpty = false := by
    cases hc : coeffChars i.natAbs with
    | nil => exact absurd hc h1
    | cons a t => rfl
  unfold intSignedChars
  by_cases hneg : i < 0
  · rw [if_pos hneg]
    have hred : parseUExp ('-' :: coeffChars i.natAbs) =
        if (!(coeffChars i.natAbs).isEmpty && (coeffChars i.natAbs).all Char.isDigit) = true
        then some (-(digitsVal (coeffChars i.natAbs) : Int)) else none := by
      simp [parseUExp]
    rw [hred, h3, h2, if_pos (by simp), digitsVal_coeffChars]
    simp only [Option.some.injEq]
    omega
  · rw [if_neg hneg]
    have hred : parseUExp ('+' :: coeffChars i.natAbs) =
        if (!(coeffChars i.natAbs).isEmpty && (coeffChars i.natAbs).all Char.isDigit) = true
        then some ((digitsVal (coeffChars i.natAbs) : Int)) else none := by
      simp [parseUExp, show ('+' : Char) ≠ '-' from by decide]
    rw [hred, h3, h2, if_pos (by simp), digitsVal_coeffChars]
    simp only [Option.some.injEq]
    omega

lemma isEmpty_and_false {ip fp : List Char} (hne : ip ≠ [] ∨ fp ≠ []) :
    (ip.isEmpty && fp.isEmpty) = false := by
  rcases hne with h | h
  · cases ip with
    | nil => exact absurd rfl h
    | cons a t => rfl
  · cases fp with
    | nil => exact absurd rfl h
    | cons a t => simp

lemma finishNum_noexp (sg : Bool) (ip fp : List Char) (hne : ip ≠ [] ∨ fp ≠ []) :
    finishNum sg ip fp [] = some ⟨sg, digitsVal (ip ++ fp), -(fp.length : Int)⟩ := by
  simp [finishNum, isEmpty_and_false hne]

lemma finishNum_exp (sg : Bool) (ip fp tail : List Char) (ev : Int)
    (hne : ip ≠ [] ∨ fp ≠ []) (hexp : parseUExp tail = some ev) :
    finishNum sg ip fp ('E' :: tail) =
      some ⟨sg, digitsVal (ip ++ fp), ev - fp.length⟩ := by
  simp [finishNum, isEmpty_and_false hne, hexp]

lemma parseAfterSign_nodot (sg : Bool) (ds' rest : List Char)
    (hds : ∀ c ∈ ds', Char.isDigit c = true)
    (hrest : ∀ c, rest.head? = some c → (Char.isDigit c = false ∧ c ≠ '.')) :
    parseAfterSign sg (ds' ++ rest) = finishNum sg ds' [] rest := by
  simp only [parseAfterSign]
  rw [takeWhile_append_of _ _ _ hds (fun c hc => (hrest c hc).1),
    dropWhile_append_of _ _ _ hds (fun c hc => (hrest c hc).1)]
  cases rest with
  | nil => rfl
  | cons c r2 =>
    obtain ⟨-, h2⟩ := hrest c rfl
    simp only [if_neg h2]

lemma parseAfterSign_dot (sg : Bool) (ds1 ds2 rest : List Char)
    (hds1 : ∀ c ∈ ds1, Char.isDigit c = true)
    (hds2 : ∀ c ∈ ds2, Char.isDigit c = true)
    (hrest : ∀ c, rest.head? = some c → Char.isDigit c = false) :
    parseAfterSign sg (ds1 ++ '.' :: (ds2 ++ rest)) = finishNum sg ds1 ds2 rest := by
  have hdothead : ∀ c : Char, ('.' :: (ds2 ++ rest)).head? = some c →
      Char.isDigit c = false := by
    intro c hc
    injection hc with hc
    rw [← hc]
    decide
  simp only [parseAfterSign]
  rw [takeWhile_append_of _ _ _ hds1 hdothead,
    dropWhile_append_of _ _ _ hds1 hdothead]
  show (if ('.' : Char) = '.' then
      finishNum sg ds1 ((ds2 ++ rest).takeWhile Char.isDigit)
        ((ds2 ++ rest).dropWhile Char.isDigit)
    else finishNum sg ds1 [] ('.' :: (ds2 ++ rest))) = finishNum sg ds1 ds2 rest
  rw [if_pos rfl, takeWhile_append_of _ _ _ hds2 (fun c hc => hrest c hc),
    dropWhile_append_of _ _ _ hds2 (fun c hc => hrest c hc)]

lemma parseAfterSign_dot_nil (sg : Bool) (ds1 ds2 : List Char)
    (hds1 : ∀ c ∈ ds1, Char.isDigit c = true)
    (hds2 : ∀ c ∈ ds2, Char.isDigit c = true) :
    parseAfterSign sg (ds1 ++ '.' :: ds2) = finishNum sg ds1 ds2 [] := by
  have h := parseAfterSign_dot sg ds1 ds2 [] hds1 hds2 (by intro c hc; simp at hc)
  rwa [List.append_nil] at h

lemma replicate_zero_digit (k : Nat) :
    ∀ c ∈ List.replicate k '0', Char.isDigit c = true := by
  intro c hc
  rw [List.eq_of_mem_replicate hc]
  decide

lemma parseAfterSign_allDigits (sg : Bool) (ds' : List Char)
    (hds : ∀ c ∈ ds', Char.isDigit c = true) :
    parseAfterSign sg ds' = finishNum sg ds' [] [] := by
  have h := parseAfterSign_nodot sg ds' [] hds (by intro c hc; simp at hc)
  rwa [List.append_nil] at h

lemma head_not_sign_cons (a : Char) (l : List Char) (h1 : a ≠ '-') (h2 : a ≠ '+') :
    ∀ c, (a :: l).head? = some c → (c ≠ '-' ∧ c ≠ '+') := by
  intro c hc
  rw [List.head?_cons] at hc
  injection hc with hc
  rw [← hc]
  exact ⟨h1, h2⟩

lemma ehead_fact (s : List Char) :
    ∀ c, (('E' : Char) :: s).head? = some c → (Char.isDigit c = false ∧ c ≠ '.') := by
  intro c hc
  rw [List.head?_cons] at hc
  injection hc with hc
  rw [← hc]
  exact ⟨by decide, by decide⟩

/-- Round-trip of the numeric grammar: parsing the printed form of a
finite Decimal recovers it exactly (same sign, coefficient and exponent). -/
lemma parseDecCore_decStr (x : PyDecimal) : parseDecCore (decStr x) = some x := by
  obtain ⟨sg, c0, e0⟩ := x
  have hdig := coeffChars_all_digit c0
  have hcne := coeffChars_ne_nil c0
  obtain ⟨dc, dtl, hds⟩ : ∃ dc dtl, coeffChars c0 = dc :: dtl := by
    cases h : coeffChars c0 with
    | nil => exact absurd h hcne
    | cons a t => exact ⟨a, t, rfl⟩
  have hdc : dc.isDigit = true := by
    apply hdig
    rw [hds]
    exact List.mem_cons_self _ _
  have hdcsign := ne_sign_of_isDigit hdc
  have hn1 : 1 ≤ (coeffChars c0).length := by
    rw [hds]
    simp
  have hheadds : ∀ c, (coeffChars c0).head? = some c → (c ≠ '-' ∧ c ≠ '+') := by
    rw [hds]
    exact head_not_sign_cons dc dtl hdcsign.1 hdcsign.2
  by_cases hg : e0 ≤ 0 ∧ (-6 : Int) < e0 + ((coeffChars c0).length : Int)
  · by_cases hA : e0 + ((coeffChars c0).length : Int) ≤ 0
    · -- plain notation, leading "0." and zero padding
      have hstr : decStr ⟨sg, c0, e0⟩ =
          (if sg then ['-'] else []) ++
            (('0' :: '.' ::
              (List.replicate (-(e0 + ((coeffChars c0).length : Int))).toNat '0' ++
                coeffChars c0)) ++ []) := by
        simp only [decStr]
        rw [if_pos hg, if_pos hA, if_pos rfl]
      rw [hstr, List.append_nil,
        parseDecCore_split sg _ (head_not_sign_cons '0' _ (by decide) (by decide))]
      show parseAfterSign sg (['0'] ++ '.' ::
          (List.replicate (-(e0 + ((coeffChars c0).length : Int))).toNat '0' ++
            coeffChars c0)) = some ⟨sg, c0, e0⟩
      rw [parseAfterSign_dot_nil sg ['0'] _
          (by intro c hc; simp at hc; rw [hc]; decide)
          (by
            intro c hc
            rcases List.mem_append.mp hc with hc | hc
            · rw [List.eq_of_mem_replicate hc]; decide
            · exact hdig c hc),
        finishNum_noexp sg _ _ (Or.inl (by simp))]
      have hco : digitsVal (['0'] ++
          (List.replicate (-(e0 + ((coeffChars c0).length : Int))).toNat '0' ++
            coeffChars c0)) = c0 := by
        show digitsVal ('0' ::
          (List.replicate (-(e0 + ((coeffChars c0).length : Int))).toNat '0' ++
            coeffChars c0)) = c0
        rw [digitsVal_cons_zero, digitsVal_replicate_zero, digitsVal_coeffChars]
      have hex : -(((List.replicate (-(e0 + ((coeffChars c0).length : Int))).toNat '0' ++
          coeffChars c0).length : Int)) = e0 := by
        simp only [List.length_append, List.length_replicate]
        push_cast
        omega
      rw [hco, hex]
    · by_cases hB : ((coeffChars c0).length : Int) ≤ e0 + ((coeffChars c0).length : Int)
      · -- integral notation: exponent is zero, the digits alone
        have he0 : e0 = 0 := by omega
        subst he0
        have hstr : decStr ⟨sg, c0, 0⟩ =
            (if sg then ['-'] else []) ++ ((coeffChars c0 ++
              List.replicate ((0 + ((coeffChars c0).length : Int)) -
                ((coeffChars c0).length : Int)).toNat '0') ++ []) := by
          simp only [decStr]
          rw [if_pos hg, if_neg hA, if_pos hB, if_pos rfl]
        rw [hstr, List.append_nil,
          show ((0 + ((coeffChars c0).length : Int)) -
            ((coeffChars c0).length : Int)).toNat = 0 from by omega,
          List.replicate_zero, List.append_nil,
          parseDecCore_split sg _ hheadds,
          parseAfterSign_allDigits sg _ hdig,
          finishNum_noexp sg _ _ (Or.inl hcne)]
        rw [List.append_nil, digitsVal_coeffChars]
        norm_num
      · -- the decimal point falls inside the digit string
        have hstr : decStr ⟨sg, c0, e0⟩ =
            (if sg then ['-'] else []) ++
              (((coeffChars c0).take (e0 + ((coeffChars c0).length : Int)).toNat ++
                '.' :: (coeffChars c0).drop
                  (e0 + ((coeffChars c0).length : Int)).toNat) ++ []) := by
          simp only [decStr]
          rw [if_pos hg, if_neg hA, if_neg hB, if_pos rfl]
        obtain ⟨k', hk'⟩ : ∃ k',
            (e0 + ((coeffChars c0).length : Int)).toNat = k' + 1 :=
          ⟨(e0 + ((coeffChars c0).length : Int)).toNat - 1, by omega⟩
        have htake_ne : (coeffChars c0).take
            (e0 + ((coeffChars c0).length : Int)).toNat ≠ [] := by
          rw [hk', hds, List.take_succ_cons]
          simp
        have hheadtk : ∀ c, ((coeffChars c0).take
            (e0 + ((coeffChars c0).length : Int)).toNat ++
            '.' :: (coeffChars c0).drop
              (e0 + ((coeffChars c0).length : Int)).toNat).head? = some c →
            (c ≠ '-' ∧ c ≠ '+') := by
          rw [hk', hds, List.take_succ_cons, List.cons_append]
          exact head_not_sign_cons dc _ hdcsign.1 hdcsign.2
        rw [hstr, List.append_nil, parseDecCore_split sg _ hheadtk,
          parseAfterSign_dot_nil sg _ _
            (fun c hc => hdig c (List.take_subset _ _ hc))
            (fun c hc => hdig c (List.drop_subset _ _ hc)),
          finishNum_noexp sg _ _ (Or.inl htake_ne),
          List.take_append_drop, digitsVal_coeffChars]
        have hex : -((((coeffChars c0).drop
            (e0 + ((coeffChars c0).length : Int)).toNat).length : Int)) = e0 := by
          simp only [List.length_drop]
          omega
        rw [hex]
  · -- scientific notation
    have hL1 : e0 + ((coeffChars c0).length : Int) ≠ 1 := by
      rcases not_and_or.mp hg with h | h <;> omega
    have hev : parseUExp (intSignedChars (e0 + ((coeffChars c0).length : Int) - 1)) =
        some (e0 + ((coeffChars c0).length : Int) - 1) :=
      parseUExp_intSignedChars (by omega)
    by_cases hD : ((coeffChars c0).length : Int) ≤ 1
    · -- a single digit before the exponent field
      have hstr : decStr ⟨sg, c0, e0⟩ =
          (if sg then ['-'] else []) ++
            ((coeffChars c0 ++
              List.replicate ((1 : Int) - ((coeffChars c0).length : Int)).toNat '0') ++
              ('E' :: intSignedChars (e0 + ((coeffChars c0).length : Int) - 1))) := by
        simp only [decStr]
        rw [if_neg hg, if_neg (by norm_num : ¬(1 : Int) ≤ 0), if_pos hD, if_neg hL1]
      rw [hstr,
        show ((1 : Int) - ((coeffChars c0).length : Int)).toNat = 0 from by omega,
        List.replicate_zero, List.append_nil,
        parseDecCore_split sg _ (by
          rw [hds, List.cons_append]
          exact head_not_sign_cons dc _ hdcsign.1 hdcsign.2),
        parseAfterSign_nodot sg _ _ hdig (ehead_fact _),
        finishNum_exp sg _ _ _ _ (Or.inl hcne) hev]
      rw [List.append_nil, digitsVal_coeffChars]
      have hex : e0 + ((coeffChars c0).length : Int) - 1 -
          ((([] : List Char)).length : Int) = e0 := by
        simp only [List.length_nil, Nat.cast_zero]
        omega
      rw [hex]
    · -- digit, point, remaining digits, exponent field
      have hstr : decStr ⟨sg, c0, e0⟩ =
          (if sg then ['-'] else []) ++
            (((coeffChars c0).take ((1 : Int)).toNat ++
              '.' :: (coeffChars c0).drop ((1 : Int)).toNat) ++
              ('E' :: intSignedChars (e0 + ((coeffChars c0).length : Int) - 1))) := by
        simp only [decStr]
        rw [if_neg hg, if_neg (by norm_num : ¬(1 : Int) ≤ 0), if_neg hD, if_neg hL1]
      rw [hstr, show ((1 : Int)).toNat = 1 from rfl, List.append_assoc,
        List.cons_append,
        parseDecCore_split sg _ (by
          rw [hds, List.take_succ_cons]
          exact head_not_sign_cons dc _ hdcsign.1 hdcsign.2),
        parseAfterSign_dot sg _ _ _
          (fun c hc => hdig c (List.take_subset _ _ hc))
          (fun c hc => hdig c (List.drop_subset _ _ hc))
          (by
            intro c hc
            rw [List.head?_cons] at hc
            injection hc with hc
            rw [← hc]
            decide),
        finishNum_exp sg _ _ _ _ (Or.inl (by rw [hds, List.take_succ_cons]; simp)) hev,
        List.take_append_drop, digitsVal_coeffChars]
      have hex : e0 + ((coeffChars c0).length : Int) - 1 -
          (((coeffChars c0).drop 1).length : Int) = e0 := by
        simp only [List.length_drop]
        omega
      rw [hex]

/-- Round-trip `Decimal(str(x)) == x` exactly, including the `strip` and
underscore-removal normalisation of the constructor. -/
lemma parseDecimal_decStr (x : PyDecimal) : parseDecimal (decStr x) = some x := by
  have hclean := decStr_clean x
  unfold parseDecimal
  rw [pyStrip_id (fun c hc => (hclean c hc).1),
    pyNoUnderscore_id (fun c hc => (hclean c hc).2),
    parseDecCore_decStr]

lemma loadRec_save (r : Rec) :
    loadRec (r.map (fun mp => (mp.1, decStr mp.2))) = some r := by
  induction r with
  | nil => rfl
  | cons mp ps ih =>
    simp [loadRec, parseDecimal_decStr, ih]

/-- C4: the deserialization of `MetalPricesCBRF._load` applied to the
serialization of `ParserCBRF._save_to_json` is the identity on every dense
series — every price round-trips with exact decimal equality (same sign,
coefficient, and exponent, hence the same exact value with no
floating-point approximation). -/
theorem load_save_roundtrip (data : List (Nat × Rec)) :
    load (save_to_json data) = some data := by
  induction data with
  | nil => rfl
  | cons dp ds ih =>
    rw [show save_to_json (dp :: ds) =
        (dp.1, dp.2.map (fun mp => (mp.1, decStr mp.2))) :: save_to_json ds from rfl]
    simp [load, loadRec_save, ih]
